import Mathlib

/-!
Verification development for the env-populate repository: a shallow
embedding of its line model, parser, placeholder resolution, merge engine
and serializer, with theorems checking the specification's claims.

Sources embedded (TypeScript):
  src/src/commands/EnvLine.ts
  src/src/commands/parseEnvLine.ts          (and parseEnvFile)
  src/src/commands/normalizePlaceholderName.ts
  src/src/commands/generateEnvLocalLines.ts
  src/src/commands/mergeEnvLocal.ts
  src/src/commands/fetchFromSupabaseJSON.ts
  src/src/commands/generateEnvAction.ts     (steps 8 and 9, merge branch)
  writeEnvFile and parseKeyValuePairs       (unnamed parts)

Strings are modelled over their character lists; JavaScript's `\s`, `\w`
and `trim` are modelled on their ASCII part. JavaScript `Map` objects and
plain objects used as string records are both modelled as association
lists with insertion-order semantics: `set`/property-assignment updates an
existing key in place and appends a fresh key at the end, which is exactly
the iteration order JavaScript guarantees.
-/

namespace EnvPopulate

/-- ASCII part of JavaScript's whitespace class `\s` (as used by `trim`,
`trimStart` and the `\s*` parts of the line regex). -/
def isJsWs (c : Char) : Bool :=
  c == ' ' || c == '\t' || c == '\n' || c == '\r' || c == '\x0b' || c == '\x0c'

/-- JavaScript `\w`: ASCII letters, digits and underscore. -/
def isWordChar (c : Char) : Bool :=
  c.isAlphanum || c == '_'

/-- The character class `[\w.-]` of the key capture in
`ENV_LINE_REGEX = /^([\w.-]+)\s*=\s*(.*)$/` (parseEnvLine.ts). -/
def isKeyChar (c : Char) : Bool :=
  isWordChar c || c == '.' || c == '-'

/-- JavaScript `String.prototype.trim` on a character list. -/
def jsTrimChars (cs : List Char) : List Char :=
  ((cs.dropWhile isJsWs).reverse.dropWhile isJsWs).reverse

/-- JavaScript `String.prototype.trim`. -/
def jsTrim (s : String) : String :=
  ⟨jsTrimChars s.data⟩

/-- The Line data model of EnvLine.ts: a tagged union of comment, blank and
key/value lines.  The blank variant's `text` field is the constant `''` in
the source, so it carries no payload here. -/
inductive EnvLine : Type where
  | comment (text : String) : EnvLine
  | blank : EnvLine
  | keyvalue (key : String) (value : String) (raw : String) : EnvLine
deriving DecidableEq, Repr

/-- The key of a line when it is a key/value line. -/
def keyOf : EnvLine → Option String
  | .keyvalue k _ _ => some k
  | _ => none

/-- The value of a line when it is a key/value line. -/
def valOf : EnvLine → Option String
  | .keyvalue _ v _ => some v
  | _ => none

/-- `ln.type === 'keyvalue'`. -/
def isKV (ln : EnvLine) : Bool :=
  (keyOf ln).isSome

/-- parseEnvLine (parseEnvLine.ts) on a character list.
  - whitespace-only text (`!line.trim()`) is a blank line;
  - text whose first non-whitespace character is `#` is a comment;
  - otherwise the line is matched against `/^([\w.-]+)\s*=\s*(.*)$/`:
    the maximal nonempty `[\w.-]` prefix, maximal whitespace, `=`, maximal
    whitespace, then the rest of the line, which the `.` class forbids to
    contain a line terminator (`\r` here: `\n` cannot occur inside a split
    line, and the surrounding character classes are pairwise disjoint, so
    the backtracking match is equivalent to this maximal-munch scan);
  - a line that fails the match is kept verbatim as a comment. -/
def parseEnvLineChars (cs : List Char) : EnvLine :=
  if cs.all isJsWs then .blank
  else if (cs.dropWhile isJsWs).head? == some '#' then .comment ⟨cs⟩
  else
    let key := cs.takeWhile isKeyChar
    let afterKey := (cs.dropWhile isKeyChar).dropWhile isJsWs
    if key.isEmpty then .comment ⟨cs⟩
    else
      match afterKey with
      | a :: afterEq =>
        if a = '=' then
          let value := afterEq.dropWhile isJsWs
          if value.contains '\r' then .comment ⟨cs⟩
          else .keyvalue ⟨key⟩ ⟨value⟩ ⟨cs⟩
        else .comment ⟨cs⟩
      | [] => .comment ⟨cs⟩

/-- parseEnvLine of parseEnvLine.ts. -/
def parseEnvLine (line : String) : EnvLine :=
  parseEnvLineChars line.data

/-- `content.split(/\r?\n/)`: split at every `\n`, also consuming a `\r`
immediately before it; a `\r` not followed by `\n` is ordinary content. -/
def splitCRLF : List Char → List (List Char)
  | [] => [[]]
  | '\r' :: '\n' :: rest => [] :: splitCRLF rest
  | '\n' :: rest => [] :: splitCRLF rest
  | c :: rest =>
    match splitCRLF rest with
    | [] => [[c]]
    | l :: ls => (c :: l) :: ls

/-- JavaScript `String.prototype.split` with a one-character separator, on
a character list: every occurrence of the separator is a boundary, so `n`
separators yield `n + 1` (possibly empty) segments. -/
def splitOnChar (sep : Char) : List Char → List (List Char)
  | [] => [[]]
  | c :: rest =>
    if c = sep then [] :: splitOnChar sep rest
    else
      match splitOnChar sep rest with
      | [] => [[c]]
      | l :: ls => (c :: l) :: ls

/-- JavaScript `s.split(sep)` for a one-character separator. -/
def jsSplit (sep : Char) (s : String) : List String :=
  (splitOnChar sep s.data).map (fun cs => (⟨cs⟩ : String))

/-- parseEnvFile with the filesystem read abstracted away: it takes the
file's text and maps every physical line through parseEnvLine. -/
def parseEnvFileText (content : String) : List EnvLine :=
  (splitCRLF content.data).map parseEnvLineChars

/-- One line of the serializer (the `output` loop of writeEnvFile):
comments and blanks contribute their stored `text` (`''` for blanks),
key/value lines contribute `key=value`. -/
def renderLine : EnvLine → String
  | .comment t => t
  | .blank => ""
  | .keyvalue k v _ => k ++ "=" ++ v

/-- The serializer's `output.join('\n')`. -/
def renderLines (lines : List EnvLine) : String :=
  String.intercalate "\n" (lines.map renderLine)

/-- The per-line normalization that parsing-then-rendering performs, stated
directly on the characters of one physical line: whitespace-only lines
collapse to the empty line, comments and unmatched lines stay verbatim, and
an assignment line is reprinted as `key=value` with the whitespace around
`=` removed. -/
def canonLineChars (cs : List Char) : List Char :=
  if cs.all isJsWs then []
  else if (cs.dropWhile isJsWs).head? == some '#' then cs
  else
    let key := cs.takeWhile isKeyChar
    let afterKey := (cs.dropWhile isKeyChar).dropWhile isJsWs
    if key.isEmpty then cs
    else
      match afterKey with
      | a :: afterEq =>
        if a = '=' then
          let value := afterEq.dropWhile isJsWs
          if value.contains '\r' then cs
          else key ++ '=' :: value
        else cs
      | [] => cs

/-- The whole-text normalization performed by parse-then-render: split on
`\r?\n` (dropping the `\r` of every `\r\n` break), normalize each line per
`canonLineChars`, and rejoin with `\n`. -/
def canonText (content : String) : String :=
  String.intercalate "\n" ((splitCRLF content.data).map (fun cs => (⟨canonLineChars cs⟩ : String)))

section AssocMap

variable {α : Type}

/-- `m.has(k)` of a JavaScript Map (also `k in obj` of a plain object). -/
def aHas (m : List (String × α)) (k : String) : Bool :=
  m.any (fun p => p.1 == k)

/-- `m.get(k)` of a JavaScript Map (also property read of a plain object). -/
def aGet? (m : List (String × α)) (k : String) : Option α :=
  (m.find? (fun p => p.1 == k)).map Prod.snd

/-- `m.set(k, v)` of a JavaScript Map (also property assignment of a plain
object): an existing key keeps its position and gets the new value, a fresh
key is appended at the end. -/
def aSet (m : List (String × α)) (k : String) (v : α) : List (String × α) :=
  if aHas m k then m.map (fun p => if p.1 == k then (k, v) else p)
  else m ++ [(k, v)]

/-- `m.delete(k)` of a JavaScript Map. -/
def aDelete (m : List (String × α)) (k : String) : List (String × α) :=
  m.filter (fun p => !(p.1 == k))

end AssocMap

/-- One iteration of the `newMap` construction of mergeEnvLocal (also of
the `linesMap` construction of writeEnvFile): a key/value line is entered
into the map under its key, other lines are skipped. -/
def buildStep (m : List (String × EnvLine)) (ln : EnvLine) : List (String × EnvLine) :=
  match keyOf ln with
  | some k => aSet m k ln
  | none => m

/-- The `newMap` construction of mergeEnvLocal (also the `linesMap`
construction of writeEnvFile): every key/value line is entered into the map
under its key, later duplicates overwriting earlier ones. -/
def buildNewMap (lines : List EnvLine) : List (String × EnvLine) :=
  lines.foldl buildStep []

/-- The line that one iteration of mergeEnvLocal's walk over
`existingLines` pushes onto `merged`: non-key/value lines and, without
override, key/value lines are kept; with override a key/value line is
replaced by the new line of the same key when the map has one. -/
def mergePushLine (m : List (String × EnvLine)) (override : Bool) (ln : EnvLine) : EnvLine :=
  match keyOf ln with
  | none => ln
  | some k =>
    if !override then ln
    else
      match aGet? m k with
      | some nl => nl
      | none => ln

/-- The map state after one iteration of mergeEnvLocal's walk: without
override the key of an existing key/value line is always deleted; with
override it is deleted exactly when the map had it. -/
def mergeStepMap (m : List (String × EnvLine)) (override : Bool) (ln : EnvLine) :
    List (String × EnvLine) :=
  match keyOf ln with
  | none => m
  | some k =>
    if !override then aDelete m k
    else if aHas m k then aDelete m k
    else m

/-- The `merged` list produced by mergeEnvLocal's walk over
`existingLines` (the loop's pushes, in order). -/
def mergeWalkOut (override : Bool) (m : List (String × EnvLine)) :
    List EnvLine → List EnvLine
  | [] => []
  | ln :: rest => mergePushLine m override ln :: mergeWalkOut override (mergeStepMap m override ln) rest

/-- The map left over after mergeEnvLocal's walk over `existingLines`
(what remains of `newMap` for the final append). -/
def mergeWalkMap (override : Bool) (m : List (String × EnvLine)) :
    List EnvLine → List (String × EnvLine)
  | [] => m
  | ln :: rest => mergeWalkMap override (mergeStepMap m override ln) rest

/-- mergeEnvLocal (mergeEnvLocal.ts), the imperative loop restated by
explicit state passing: build `newMap` from the new lines' key/value
entries, walk the existing lines pushing per `mergePushLine` while
shrinking the map per `mergeStepMap`, then append the leftover map values
in their insertion order. -/
def mergeEnvLocal (existingLines newLines : List EnvLine) (override : Bool) : List EnvLine :=
  let newMap := buildNewMap newLines
  mergeWalkOut override newMap existingLines ++ (mergeWalkMap override newMap existingLines).map Prod.snd

/-- The fresh key/value line writeEnvFile builds for an extra variable:
`{ type: 'keyvalue', key: k, value: v, raw: k+'='+v }`. -/
def mkExtraLine (k v : String) : EnvLine :=
  .keyvalue k v (k ++ "=" ++ v)

/-- writeEnvFile's extra-variables loop over `linesMap`: an absent key is
added; a present key is updated only under override. -/
def applyExtraVars (override : Bool) (m : List (String × EnvLine))
    (extraVars : List (String × String)) : List (String × EnvLine) :=
  extraVars.foldl
    (fun m kv =>
      if aHas m kv.1 then
        if override then aSet m kv.1 (mkExtraLine kv.1 kv.2) else m
      else aSet m kv.1 (mkExtraLine kv.1 kv.2))
    m

/-- The `finalLines` walk of writeEnvFile over the original lines:
non-key/value lines are pushed; a key/value line is replaced by the map's
line for its key (and the key deleted), or skipped when the map no longer
has the key (a duplicate whose key was already emitted). -/
def writeWalkOut (m : List (String × EnvLine)) : List EnvLine → List EnvLine
  | [] => []
  | ln :: rest =>
    match keyOf ln with
    | none => ln :: writeWalkOut m rest
    | some k =>
      match aGet? m k with
      | some cur => cur :: writeWalkOut (aDelete m k) rest
      | none => writeWalkOut m rest

/-- The map left over after writeEnvFile's `finalLines` walk. -/
def writeWalkMap (m : List (String × EnvLine)) : List EnvLine → List (String × EnvLine)
  | [] => m
  | ln :: rest =>
    match keyOf ln with
    | none => writeWalkMap m rest
    | some k =>
      match aGet? m k with
      | some _ => writeWalkMap (aDelete m k) rest
      | none => writeWalkMap m rest

/-- writeEnvFile with the filesystem write abstracted away: it returns the
text that would be written.  The leftover loop's `!finalLines.includes(ln)`
membership test is modelled with structural equality; in the source it is
reference equality, and on every reachable state both are false (a leftover
line's key differs from the key of every line already pushed). -/
def writeEnvFile (lines : List EnvLine) (extraVars : List (String × String))
    (override : Bool) : String :=
  let m := applyExtraVars override (buildNewMap lines) extraVars
  let walked := writeWalkOut m lines
  let finalLines :=
    (writeWalkMap m lines).foldl
      (fun acc p => if acc.contains p.2 then acc else acc ++ [p.2])
      walked
  String.intercalate "\n" (finalLines.map renderLine)

/-- normalizePlaceholderName (normalizePlaceholderName.ts):
`raw.trim().toLowerCase().replace(/_/g, '-')`. -/
def normalizePlaceholderName (raw : String) : String :=
  ⟨((jsTrimChars raw.data).map Char.toLower).map (fun c => if c == '_' then '-' else c)⟩

/-- `rawValue.match(/^<(.*)>$/)`: the whole value is an angle-bracketed
token; `.` cannot match a line terminator, so an interior containing `\r`
or `\n` fails the match. -/
def matchAngle (v : String) : Option String :=
  match v.data with
  | '<' :: rest =>
    if rest.getLast? == some '>' then
      let inner := rest.dropLast
      if inner.contains '\r' || inner.contains '\n' then none
      else some ⟨inner⟩
    else none
  | _ => none

/-- The body of generateEnvLocalLines's map (generateEnvLocalLines.ts):
a key/value line whose trimmed value is a whole-value bracket token is
replaced by the table's value for the normalized interior name when the
table has one; every other line passes through unchanged. -/
def resolveLine (placeholderMap : List (String × String)) (line : EnvLine) : EnvLine :=
  match line with
  | .keyvalue key value _ =>
    match matchAngle (jsTrim value) with
    | none => line
    | some inner =>
      match aGet? placeholderMap (normalizePlaceholderName inner) with
      | some replacement => .keyvalue key replacement (key ++ "=" ++ replacement)
      | none => line
  | _ => line

/-- generateEnvLocalLines (generateEnvLocalLines.ts). -/
def generateEnvLocalLines (envExampleLines : List EnvLine)
    (placeholderMap : List (String × String)) : List EnvLine :=
  envExampleLines.map (resolveLine placeholderMap)

/-- Step 8 of generateEnvAction:
`finalPlaceholders = { ...supabaseMap, ...userPlaceholders }`. -/
def combinePlaceholders (supabaseMap userPlaceholders : List (String × String)) :
    List (String × String) :=
  userPlaceholders.foldl (fun acc p => aSet acc p.1 p.2) supabaseMap

/-- fetchFromSupabaseJSON (fetchFromSupabaseJSON.ts), success path: the
subprocess invocation is abstracted to `jsonData`, the parsed JSON object
read as a partial map from top-level field name to string value.  An empty
request list returns the empty table; otherwise the five fixed placeholder
names are assigned from the five fixed fields, unconditionally.  A property
assigned `undefined` (absent field) still exists on the JavaScript object,
so entries carry `Option String` values. -/
def fetchFromSupabaseJSON (placeholderNames : List String)
    (jsonData : String → Option String) : List (String × Option String) :=
  if placeholderNames.isEmpty then []
  else
    [("supabase-url", jsonData "API_URL"),
     ("supabase-anon-key", jsonData "ANON_KEY"),
     ("supabase-service-role-key", jsonData "SERVICE_ROLE_KEY"),
     ("supabase-graphql-url", jsonData "GRAPHQL_URL"),
     ("supabase-db-url", jsonData "DB_URL")]

/-- Step 9 of generateEnvAction:
`const canOverride = !options.merge && options.override`. -/
def canOverride (mergeOpt overrideOpt : Bool) : Bool :=
  !mergeOpt && overrideOpt

/-- The existing-destination branch of generateEnvAction's per-file loop
(dry run off, file exists): with `--no-merge` the file is skipped (`none`);
otherwise the existing lines are merged with the generated lines under
`canOverride` and written through writeEnvFile. -/
def processExistingFile (existing replaced : List EnvLine)
    (extraVars : List (String × String)) (mergeOpt overrideOpt : Bool) : Option String :=
  if !mergeOpt then none
  else
    some (writeEnvFile (mergeEnvLocal existing replaced (canOverride mergeOpt overrideOpt))
      extraVars (canOverride mergeOpt overrideOpt))

/-- One iteration of parseKeyValuePairs' loop: split the pair on `=`
(`const [k, v] = p.split('=')` keeps the first two segments), throw on a
falsy `k` or `v` (empty first segment, or empty-or-missing second segment),
otherwise store `k.trim() -> v.trim()`. -/
def parsePairStep (result : List (String × String)) (p : String) :
    Except String (List (String × String)) :=
  let parts := jsSplit '=' p
  let k := parts.headD ""
  let v := (parts[1]?).getD ""
  if k == "" || v == "" then
    .error ("Invalid key-value pair: \"" ++ p ++ "\". Must be \"key=value\"")
  else .ok (aSet result (jsTrim k) (jsTrim v))

/-- parseKeyValuePairs: the early return for whitespace-only input yields
the empty record; otherwise the input is split on `,` and folded through
`parsePairStep`, the first throw aborting the loop. -/
def parseKeyValuePairs (input : String) : Except String (List (String × String)) :=
  if jsTrim input == "" then .ok []
  else (jsSplit ',' input).foldlM parsePairStep []

/-- The condition under which parseKeyValuePairs' loop throws on a pair:
the segment before the first `=` is empty, or the segment between the first
and second `=` is empty or missing. -/
def badPair (p : String) : Bool :=
  ((jsSplit '=' p).headD "" == "") || ((((jsSplit '=' p)[1]?).getD "") == "")

/-- Whether an Except value is a thrown error. -/
def isErr {ε γ : Type} : Except ε γ → Bool
  | .error _ => true
  | .ok _ => false

/-- Left-biased choice on options (first one when present). -/
def oOr {α : Type} : Option α → Option α → Option α
  | some x, _ => some x
  | none, b => b

/-- The keys of the key/value lines of a line list, in order of occurrence
(with multiplicity). -/
def kvKeys (lines : List EnvLine) : List String :=
  lines.filterMap keyOf

/-- The first key/value line with the given key. -/
def firstKV (lines : List EnvLine) (k : String) : Option EnvLine :=
  lines.find? (fun ln => keyOf ln == some k)

/-- The value of the first key/value line with the given key. -/
def firstVal (lines : List EnvLine) (k : String) : Option String :=
  (firstKV lines k).bind valOf

/-- The last key/value line with the given key. -/
def lastKV : List EnvLine → String → Option EnvLine
  | [], _ => none
  | ln :: rest, k =>
    match lastKV rest k with
    | some x => some x
    | none => if keyOf ln == some k then some ln else none

/-- The value of the last key/value line with the given key. -/
def lastVal (lines : List EnvLine) (k : String) : Option String :=
  (lastKV lines k).bind valOf

/-- Well-formedness of the line maps the merge and write walks consume:
every entry's line is a key/value line carrying the entry's key. -/
def MapWF (m : List (String × EnvLine)) : Prop :=
  ∀ p ∈ m, keyOf p.2 = some p.1

/-! ## Association-map lemmas -/

section AssocMapLemmas

variable {α : Type}

theorem aGet?_nil (k : String) : aGet? ([] : List (String × α)) k = none := rfl

theorem aGet?_cons (p : String × α) (m : List (String × α)) (k : String) :
    aGet? (p :: m) k = if p.1 == k then some p.2 else aGet? m k := by
  cases h : p.1 == k <;> simp [aGet?, List.find?_cons, h]

theorem aDelete_nil (j : String) : aDelete ([] : List (String × α)) j = [] := rfl

theorem aDelete_cons (p : String × α) (m : List (String × α)) (j : String) :
    aDelete (p :: m) j = if p.1 == j then aDelete m j else p :: aDelete m j := by
  cases h : p.1 == j <;> simp [aDelete, List.filter_cons, h]

theorem aHas_cons (p : String × α) (m : List (String × α)) (k : String) :
    aHas (p :: m) k = ((p.1 == k) || aHas m k) := by
  simp [aHas]

theorem aGet?_of_aHas_false {m : List (String × α)} {k : String}
    (h : aHas m k = false) : aGet? m k = none := by
  induction m with
  | nil => rfl
  | cons p m ih =>
    rw [aHas_cons, Bool.or_eq_false_iff] at h
    rw [aGet?_cons, if_neg (by simp [h.1]), ih h.2]

theorem oOr_none (a : Option α) : oOr a none = a := by
  cases a <;> rfl

theorem aGet?_append (m₁ m₂ : List (String × α)) (k : String) :
    aGet? (m₁ ++ m₂) k = oOr (aGet? m₁ k) (aGet? m₂ k) := by
  induction m₁ with
  | nil => rfl
  | cons p m ih =>
    rw [List.cons_append, aGet?_cons, aGet?_cons]
    cases h : p.1 == k <;> simp [oOr, ih]

theorem aGet?_map_replace_self (m : List (String × α)) (k : String) (v : α) :
    aGet? (m.map (fun p => if p.1 == k then (k, v) else p)) k =
      if aHas m k then some v else none := by
  induction m with
  | nil => rfl
  | cons p m ih =>
    rw [List.map_cons, aHas_cons]
    cases h : p.1 == k
    · rw [if_neg (by simp [h]), aGet?_cons, if_neg (by simp [h]), ih]
      simp
    · rw [if_pos (by simp [h]), aGet?_cons]
      simp

theorem aGet?_map_replace_ne (m : List (String × α)) {j k : String} (v : α)
    (hjk : j ≠ k) :
    aGet? (m.map (fun p => if p.1 == j then (j, v) else p)) k = aGet? m k := by
  induction m with
  | nil => rfl
  | cons p m ih =>
    rw [List.map_cons]
    cases h : p.1 == j
    · rw [if_neg (by simp [h]), aGet?_cons, aGet?_cons, ih]
    · rw [if_pos (by simp [h]), aGet?_cons, aGet?_cons, ih]
      have hpj : p.1 = j := by simpa using h
      have : (j == k) = false := by simpa using hjk
      rw [hpj, this]
      simp

theorem aGet?_aSet_self (m : List (String × α)) (k : String) (v : α) :
    aGet? (aSet m k v) k = some v := by
  unfold aSet
  cases hh : aHas m k
  · rw [if_neg (by simp [hh]), aGet?_append, aGet?_of_aHas_false hh]
    simp [oOr, aGet?_cons]
  · rw [if_pos (by simp [hh]), aGet?_map_replace_self, hh]
    simp

theorem aGet?_aSet_ne (m : List (String × α)) {j k : String} (v : α) (hjk : j ≠ k) :
    aGet? (aSet m j v) k = aGet? m k := by
  unfold aSet
  cases hh : aHas m j
  · rw [if_neg (by simp [hh]), aGet?_append]
    have : aGet? [(j, v)] k = none := by
      rw [aGet?_cons, if_neg (by simp [hjk]), aGet?_nil]
    rw [this, oOr_none]
  · rw [if_pos (by simp [hh]), aGet?_map_replace_ne m v hjk]

theorem aGet?_aDelete (m : List (String × α)) (j k : String) :
    aGet? (aDelete m j) k = if j == k then none else aGet? m k := by
  induction m with
  | nil => cases h : j == k <;> simp [aDelete_nil, aGet?_nil, h]
  | cons p m ih =>
    rw [aDelete_cons]
    cases hpj : p.1 == j
    · rw [if_neg (by simp [hpj]), aGet?_cons, aGet?_cons, ih]
      cases hjk : j == k
      · simp
      · have hj : j = k := by simpa using hjk
        have : (p.1 == k) = false := by
          simp only [beq_eq_false_iff_ne] at hpj ⊢
          rw [← hj] at *
          exact hpj
        simp [this]
    · rw [if_pos (by simp [hpj]), ih]
      cases hjk : j == k
      · have hpk : (p.1 == k) = false := by
          have h1 : p.1 = j := by simpa using hpj
          have h2 : j ≠ k := by simpa using hjk
          simp [h1, h2]
        simp [aGet?_cons, hpk]
      · simp

theorem mem_of_mem_aDelete {m : List (String × α)} {j : String} {p : String × α}
    (h : p ∈ aDelete m j) : p ∈ m :=
  List.mem_of_mem_filter h

end AssocMapLemmas

/-! ## Map well-formedness -/

theorem MapWF_nil : MapWF [] := by
  intro p hp
  cases hp

theorem MapWF_aDelete {m : List (String × EnvLine)} {j : String} (h : MapWF m) :
    MapWF (aDelete m j) :=
  fun p hp => h p (mem_of_mem_aDelete hp)

theorem MapWF_aSet {m : List (String × EnvLine)} {k : String} {v : EnvLine}
    (h : MapWF m) (hv : keyOf v = some k) : MapWF (aSet m k v) := by
  intro p hp
  unfold aSet at hp
  by_cases hh : aHas m k = true
  · rw [if_pos (by simp [hh])] at hp
    obtain ⟨q, hq, hpq⟩ := List.mem_map.mp hp
    by_cases hqk : q.1 == k
    · rw [if_pos hqk] at hpq
      subst hpq
      exact hv
    · rw [if_neg hqk] at hpq
      subst hpq
      exact h q hq
  · rw [if_neg (by simp [hh])] at hp
    rcases List.mem_append.mp hp with hm | hone
    · exact h p hm
    · rcases List.mem_singleton.mp hone with rfl
      exact hv

theorem MapWF_buildStep {m : List (String × EnvLine)} (h : MapWF m) (ln : EnvLine) :
    MapWF (buildStep m ln) := by
  unfold buildStep
  cases hk : keyOf ln
  · exact h
  · exact MapWF_aSet h hk

theorem MapWF_foldl_buildStep (N : List EnvLine) :
    ∀ m : List (String × EnvLine), MapWF m → MapWF (N.foldl buildStep m) := by
  induction N with
  | nil => intro m h; exact h
  | cons ln N ih =>
    intro m h
    rw [List.foldl_cons]
    exact ih _ (MapWF_buildStep h ln)

theorem MapWF_buildNewMap (N : List EnvLine) : MapWF (buildNewMap N) :=
  MapWF_foldl_buildStep N [] MapWF_nil

theorem keyOf_of_aGet? {m : List (String × EnvLine)} {k : String} {v : EnvLine}
    (h : MapWF m) (hg : aGet? m k = some v) : keyOf v = some k := by
  unfold aGet? at hg
  cases hf : m.find? (fun p => p.1 == k) with
  | none => rw [hf] at hg; cases hg
  | some p =>
    rw [hf] at hg
    have hv : v = p.2 := by simpa using hg.symm
    have hpk : p.1 = k := by simpa using List.find?_some hf
    have hpm : p ∈ m := List.mem_of_find?_eq_some hf
    rw [hv, h p hpm, hpk]

/-! ## Lookup lemmas for buildNewMap and the key lists -/

theorem lastKV_nil (k : String) : lastKV [] k = none := rfl

theorem lastKV_cons (ln : EnvLine) (N : List EnvLine) (k : String) :
    lastKV (ln :: N) k =
      match lastKV N k with
      | some x => some x
      | none => if keyOf ln == some k then some ln else none := rfl

theorem aGet?_foldl_buildStep (N : List EnvLine) :
    ∀ (m : List (String × EnvLine)) (k : String),
      aGet? (N.foldl buildStep m) k = oOr (lastKV N k) (aGet? m k) := by
  induction N with
  | nil => intro m k; rfl
  | cons ln N ih =>
    intro m k
    rw [List.foldl_cons, ih, lastKV_cons]
    cases hl : lastKV N k with
    | some x => simp [oOr]
    | none =>
      simp only [oOr]
      unfold buildStep
      cases hk : keyOf ln with
      | none => simp [oOr]
      | some j =>
        by_cases hjk : j = k
        · subst hjk
          simp [aGet?_aSet_self, oOr]
        · rw [aGet?_aSet_ne m ln hjk]
          have hb : (some j == some k) = false := by simp [hjk]
          simp [hb, oOr]

theorem aGet?_buildNewMap (N : List EnvLine) (k : String) :
    aGet? (buildNewMap N) k = lastKV N k := by
  rw [buildNewMap, aGet?_foldl_buildStep, aGet?_nil, oOr_none]

theorem mem_kvKeys {k : String} {E : List EnvLine} :
    k ∈ kvKeys E ↔ ∃ ln ∈ E, keyOf ln = some k :=
  List.mem_filterMap

theorem kvKeys_cons_some {hd : EnvLine} {k : String} (rest : List EnvLine)
    (h : keyOf hd = some k) : kvKeys (hd :: rest) = k :: kvKeys rest := by
  simp [kvKeys, List.filterMap_cons, h]

theorem kvKeys_cons_none {hd : EnvLine} (rest : List EnvLine)
    (h : keyOf hd = none) : kvKeys (hd :: rest) = kvKeys rest := by
  simp [kvKeys, List.filterMap_cons, h]

theorem lastKV_of_not_mem {N : List EnvLine} {k : String} (h : k ∉ kvKeys N) :
    lastKV N k = none := by
  induction N with
  | nil => rfl
  | cons hd rest ih =>
    have hhead : keyOf hd ≠ some k := by
      intro hk
      exact h (mem_kvKeys.mpr ⟨hd, by simp, hk⟩)
    have htail : k ∉ kvKeys rest := by
      intro hc
      obtain ⟨ln, hln, hk⟩ := mem_kvKeys.mp hc
      exact h (mem_kvKeys.mpr ⟨ln, by simp [hln], hk⟩)
    rw [lastKV_cons, ih htail]
    simp [hhead]

theorem lastKV_of_mem {N : List EnvLine} {k : String} (h : k ∈ kvKeys N) :
    ∃ x, lastKV N k = some x := by
  induction N with
  | nil => simp [kvKeys] at h
  | cons hd rest ih =>
    rw [lastKV_cons]
    cases hl : lastKV rest k with
    | some x => exact ⟨x, rfl⟩
    | none =>
      obtain ⟨ln, hln, hk⟩ := mem_kvKeys.mp h
      rcases List.mem_cons.mp hln with rfl | htail
      · exact ⟨ln, by simp [hk]⟩
      · obtain ⟨x, hx⟩ := ih (mem_kvKeys.mpr ⟨ln, htail, hk⟩)
        exact absurd (hl.symm.trans hx) (by simp)

/-! ## firstKV lemmas -/

theorem firstKV_cons (ln : EnvLine) (rest : List EnvLine) (k : String) :
    firstKV (ln :: rest) k =
      if keyOf ln == some k then some ln else firstKV rest k := by
  cases h : keyOf ln == some k <;> simp [firstKV, List.find?_cons, h]

theorem firstKV_append_left {E : List EnvLine} {k : String} {x : EnvLine}
    (h : firstKV E k = some x) (L : List EnvLine) :
    firstKV (E ++ L) k = some x := by
  induction E with
  | nil => cases h
  | cons ln rest ih =>
    rw [List.cons_append, firstKV_cons]
    rw [firstKV_cons] at h
    cases hk : keyOf ln == some k
    · rw [hk] at h
      simpa using ih (by simpa using h)
    · rw [hk] at h
      simpa using h

theorem firstKV_of_mem {E : List EnvLine} {k : String} (h : k ∈ kvKeys E) :
    ∃ x, firstKV E k = some x ∧ keyOf x = some k := by
  induction E with
  | nil => simp [kvKeys] at h
  | cons ln rest ih =>
    rw [firstKV_cons]
    cases hk : keyOf ln == some k
    · have hhead : keyOf ln ≠ some k := by simpa using hk
      have htail : k ∈ kvKeys rest := by
        obtain ⟨ln', hln', hk'⟩ := mem_kvKeys.mp h
        rcases List.mem_cons.mp hln' with rfl | ht
        · exact absurd hk' hhead
        · exact mem_kvKeys.mpr ⟨ln', ht, hk'⟩
      obtain ⟨x, hx, hkey⟩ := ih htail
      exact ⟨x, by simp [hx], hkey⟩
    · exact ⟨ln, by simp, by simpa using hk⟩

theorem mem_kvKeys_of_firstKV {lines : List EnvLine} {k : String} {x : EnvLine}
    (h : firstKV lines k = some x) :
    k ∈ kvKeys lines ∧ x ∈ lines ∧ keyOf x = some k := by
  have hmem := List.mem_of_find?_eq_some h
  have hpred : keyOf x = some k := by simpa using List.find?_some h
  exact ⟨mem_kvKeys.mpr ⟨x, hmem, hpred⟩, hmem, hpred⟩

/-! ## Merge-walk lemmas -/

theorem isKV_false_iff {ln : EnvLine} : isKV ln = false ↔ keyOf ln = none := by
  cases hk : keyOf ln <;> simp [isKV, hk]

theorem mergePushLine_nonkv {m : List (String × EnvLine)} {ov : Bool} {ln : EnvLine}
    (h : keyOf ln = none) : mergePushLine m ov ln = ln := by
  simp [mergePushLine, h]

theorem mergePushLine_false (m : List (String × EnvLine)) (ln : EnvLine) :
    mergePushLine m false ln = ln := by
  cases hk : keyOf ln <;> simp [mergePushLine, hk]

theorem keyOf_mergePushLine {m : List (String × EnvLine)} {ov : Bool} {ln : EnvLine}
    (h : MapWF m) : keyOf (mergePushLine m ov ln) = keyOf ln := by
  cases hk : keyOf ln with
  | none => rw [mergePushLine_nonkv hk]; exact hk
  | some k =>
    unfold mergePushLine
    rw [hk]
    cases ov with
    | false => simp [hk]
    | true =>
      simp only [Bool.not_true, Bool.false_eq_true, if_false]
      cases hg : aGet? m k with
      | none => simp [hk]
      | some nl => simpa using keyOf_of_aGet? h hg

theorem mergeStepMap_nonkv {m : List (String × EnvLine)} {ov : Bool} {ln : EnvLine}
    (h : keyOf ln = none) : mergeStepMap m ov ln = m := by
  simp [mergeStepMap, h]

theorem aGet?_aDelete_of_none {α : Type} {m : List (String × α)} {j k : String}
    (h : aGet? m k = none) : aGet? (aDelete m j) k = none := by
  rw [aGet?_aDelete]
  split <;> simp [h]

theorem aGet?_aDelete_ne {α : Type} {m : List (String × α)} {j k : String}
    (h : j ≠ k) : aGet? (aDelete m j) k = aGet? m k := by
  rw [aGet?_aDelete, if_neg (by simp [h])]

theorem MapWF_mergeStepMap {m : List (String × EnvLine)} {ov : Bool} {ln : EnvLine}
    (h : MapWF m) : MapWF (mergeStepMap m ov ln) := by
  unfold mergeStepMap
  split
  · exact h
  · split
    · exact MapWF_aDelete h
    · split
      · exact MapWF_aDelete h
      · exact h

theorem aGet?_mergeStepMap_none {m : List (String × EnvLine)} {k : String}
    (ov : Bool) (ln : EnvLine) (h : aGet? m k = none) :
    aGet? (mergeStepMap m ov ln) k = none := by
  unfold mergeStepMap
  split
  · exact h
  · split
    · exact aGet?_aDelete_of_none h
    · split
      · exact aGet?_aDelete_of_none h
      · exact h

theorem aGet?_mergeStepMap_ne {m : List (String × EnvLine)} {k j : String}
    {ov : Bool} {ln : EnvLine} (hk : keyOf ln = some j) (hjk : j ≠ k) :
    aGet? (mergeStepMap m ov ln) k = aGet? m k := by
  unfold mergeStepMap
  rw [hk]
  show aGet? (if !ov then aDelete m j else if aHas m j then aDelete m j else m) k = aGet? m k
  cases ov with
  | false => simpa using aGet?_aDelete_ne hjk
  | true =>
    simp only [Bool.not_true, Bool.false_eq_true, if_false]
    by_cases hh : aHas m j = true
    · rw [if_pos hh]; exact aGet?_aDelete_ne hjk
    · rw [if_neg hh]

theorem mergeWalkOut_nil (ov : Bool) (m : List (String × EnvLine)) :
    mergeWalkOut ov m [] = [] := rfl

theorem mergeWalkOut_cons (ov : Bool) (m : List (String × EnvLine))
    (ln : EnvLine) (rest : List EnvLine) :
    mergeWalkOut ov m (ln :: rest) =
      mergePushLine m ov ln :: mergeWalkOut ov (mergeStepMap m ov ln) rest := rfl

theorem mergeWalkOut_false (m : List (String × EnvLine)) (E : List EnvLine) :
    mergeWalkOut false m E = E := by
  induction E generalizing m with
  | nil => rfl
  | cons ln rest ih => rw [mergeWalkOut_cons, mergePushLine_false, ih]

theorem mergeWalkMap_nil (ov : Bool) (m : List (String × EnvLine)) :
    mergeWalkMap ov m [] = m := rfl

theorem mergeWalkMap_cons (ov : Bool) (m : List (String × EnvLine))
    (ln : EnvLine) (rest : List EnvLine) :
    mergeWalkMap ov m (ln :: rest) = mergeWalkMap ov (mergeStepMap m ov ln) rest := rfl

theorem mem_mergeStepMap {m : List (String × EnvLine)} {ov : Bool} {ln : EnvLine}
    {p : String × EnvLine} (h : p ∈ mergeStepMap m ov ln) : p ∈ m := by
  unfold mergeStepMap at h
  revert h
  split
  · exact id
  · split
    · exact mem_of_mem_aDelete
    · split
      · exact mem_of_mem_aDelete
      · exact id

theorem mem_mergeWalkMap {ov : Bool} {E : List EnvLine} :
    ∀ {m : List (String × EnvLine)} {p : String × EnvLine},
      p ∈ mergeWalkMap ov m E → p ∈ m := by
  induction E with
  | nil => intro m p h; exact h
  | cons ln rest ih =>
    intro m p h
    rw [mergeWalkMap_cons] at h
    exact mem_mergeStepMap (ih h)

theorem firstKV_mergeWalkOut_of_none {ov : Bool} {k : String} {E : List EnvLine} :
    ∀ {m : List (String × EnvLine)}, MapWF m → aGet? m k = none →
      firstKV (mergeWalkOut ov m E) k = firstKV E k := by
  induction E with
  | nil => intro m _ _; rfl
  | cons ln rest ih =>
    intro m hwf hnone
    rw [mergeWalkOut_cons, firstKV_cons, firstKV_cons, keyOf_mergePushLine hwf]
    cases hk : keyOf ln == some k
    · simp only [hk, Bool.false_eq_true, if_false]
      exact ih (MapWF_mergeStepMap hwf) (aGet?_mergeStepMap_none ov ln hnone)
    · have hkk : keyOf ln = some k := by simpa using hk
      have hpush : mergePushLine m ov ln = ln := by
        cases ov <;> simp [mergePushLine, hkk, hnone]
      simp [hpush]

theorem firstKV_mergeWalkOut_of_some {k : String} {nl : EnvLine} {E : List EnvLine} :
    ∀ {m : List (String × EnvLine)}, MapWF m → aGet? m k = some nl →
      k ∈ kvKeys E → firstKV (mergeWalkOut true m E) k = some nl := by
  induction E with
  | nil => intro m _ _ h; simp [kvKeys] at h
  | cons ln rest ih =>
    intro m hwf hsome hmem
    rw [mergeWalkOut_cons, firstKV_cons, keyOf_mergePushLine hwf]
    cases hk : keyOf ln == some k
    · have hkk : keyOf ln ≠ some k := by simpa using hk
      have hmem' : k ∈ kvKeys rest := by
        obtain ⟨ln', hln', hk'⟩ := mem_kvKeys.mp hmem
        rcases List.mem_cons.mp hln' with rfl | ht
        · exact absurd hk' hkk
        · exact mem_kvKeys.mpr ⟨ln', ht, hk'⟩
      have hget : aGet? (mergeStepMap m true ln) k = some nl := by
        cases hkey : keyOf ln with
        | none => rw [mergeStepMap_nonkv hkey]; exact hsome
        | some j =>
          have hjk : j ≠ k := fun e => hkk (by rw [hkey, e])
          rw [aGet?_mergeStepMap_ne hkey hjk]
          exact hsome
      simp only [hk, Bool.false_eq_true, if_false]
      exact ih (MapWF_mergeStepMap hwf) hget hmem'
    · have hkk : keyOf ln = some k := by simpa using hk
      have hpush : mergePushLine m true ln = nl := by
        simp [mergePushLine, hkk, hsome]
      simp [hpush]

theorem mergeWalkOut_append_get_nonKV {ov : Bool} {E : List EnvLine} :
    ∀ {m : List (String × EnvLine)} (L : List EnvLine) (i : Nat) (ln : EnvLine),
      E[i]? = some ln → isKV ln = false →
      (mergeWalkOut ov m E ++ L)[i]? = some ln := by
  induction E with
  | nil => intro m L i ln h _; simp at h
  | cons hd rest ih =>
    intro m L i ln h hkv
    cases i with
    | zero =>
      have hhd : hd = ln := by simpa using h
      subst hhd
      rw [mergeWalkOut_cons, List.cons_append,
        mergePushLine_nonkv (isKV_false_iff.mp hkv)]
      simp
    | succ i =>
      rw [mergeWalkOut_cons, List.cons_append, List.getElem?_cons_succ]
      exact ih L i ln (by simpa using h) hkv

theorem mem_mergeWalkOut_nonKV {ov : Bool} {E : List EnvLine} :
    ∀ {m : List (String × EnvLine)} {ln : EnvLine}, MapWF m →
      ln ∈ mergeWalkOut ov m E → isKV ln = false → ln ∈ E := by
  induction E with
  | nil => intro m ln _ h _; simp [mergeWalkOut_nil] at h
  | cons hd rest ih =>
    intro m ln hwf hmem hkv
    rw [mergeWalkOut_cons] at hmem
    rcases List.mem_cons.mp hmem with heq | htail
    · have h1 : keyOf hd = none := by
        rw [← @keyOf_mergePushLine m ov hd hwf, ← heq]
        exact isKV_false_iff.mp hkv
      rw [heq, mergePushLine_nonkv h1]
      exact List.mem_cons_self hd rest
    · exact List.mem_cons_of_mem hd (ih (MapWF_mergeStepMap hwf) htail hkv)

/-! ## buildNewMap on all-key/value, duplicate-free line lists -/

theorem aHas_append {α : Type} (m₁ m₂ : List (String × α)) (k : String) :
    aHas (m₁ ++ m₂) k = (aHas m₁ k || aHas m₂ k) := by
  simp [aHas]

theorem foldl_buildStep_of_fresh {N : List EnvLine} :
    ∀ {m : List (String × EnvLine)},
      (∀ ln ∈ N, isKV ln = true) → (kvKeys N).Nodup →
      (∀ j ∈ kvKeys N, aHas m j = false) →
      N.foldl buildStep m = m ++ N.map (fun ln => ((keyOf ln).getD "", ln)) := by
  induction N with
  | nil => intro m _ _ _; simp
  | cons hd rest ih =>
    intro m hkv hnd hfresh
    obtain ⟨k, hk⟩ : ∃ k, keyOf hd = some k := by
      have := hkv hd (List.mem_cons_self hd rest)
      cases hkey : keyOf hd with
      | none => rw [isKV_false_iff.mpr hkey] at this; cases this
      | some k => exact ⟨k, rfl⟩
    have hkeys : kvKeys (hd :: rest) = k :: kvKeys rest := kvKeys_cons_some rest hk
    have hknotin : k ∉ kvKeys rest := by
      rw [hkeys] at hnd
      exact (List.nodup_cons.mp hnd).1
    have hstep : buildStep m hd = m ++ [(k, hd)] := by
      have hmk : aHas m k = false := hfresh k (by rw [hkeys]; simp)
      simp [buildStep, hk, aSet, hmk]
    rw [List.foldl_cons, hstep,
      ih (fun ln hln => hkv ln (List.mem_cons_of_mem hd hln))
        (by rw [hkeys] at hnd; exact (List.nodup_cons.mp hnd).2)
        (by
          intro j hj
          rw [aHas_append]
          have h1 : aHas m j = false := hfresh j (by rw [hkeys]; simp [hj])
          have h2 : aHas [(k, hd)] j = false := by
            have : k ≠ j := fun e => hknotin (e ▸ hj)
            simp [aHas, this]
          simp [h1, h2])]
    simp [hk, List.append_assoc]

theorem buildNewMap_of_distinct {N : List EnvLine}
    (hkv : ∀ ln ∈ N, isKV ln = true) (hnd : (kvKeys N).Nodup) :
    (buildNewMap N).map Prod.snd = N := by
  have h := @foldl_buildStep_of_fresh N [] hkv hnd (fun j _ => rfl)
  rw [buildNewMap, h]
  rw [List.nil_append, List.map_map]
  have hcomp : (Prod.snd ∘ fun ln : EnvLine => ((keyOf ln).getD "", ln)) = fun ln => ln := by
    funext ln
    rfl
  rw [hcomp]
  simp

/-! ## parseKeyValuePairs loop lemmas -/

theorem isErr_parsePairStep (acc : List (String × String)) (p : String) :
    isErr (parsePairStep acc p) = badPair p := by
  simp only [parsePairStep]
  split
  · next h => simp only [isErr]; exact h.symm
  · next h => simp only [isErr]; exact (Bool.eq_false_iff.mpr h).symm

theorem isErr_foldlM_parsePairStep (l : List String) :
    ∀ acc, isErr (l.foldlM parsePairStep acc) = l.any badPair := by
  induction l with
  | nil => intro acc; rfl
  | cons p l ih =>
    intro acc
    rw [List.foldlM_cons, List.any_cons]
    cases hstep : parsePairStep acc p with
    | error e =>
      have hb : badPair p = true := by
        rw [← isErr_parsePairStep acc p, hstep]; rfl
      simp [hstep, Bind.bind, Except.bind, isErr, hb]
    | ok acc2 =>
      have hb : badPair p = false := by
        rw [← isErr_parsePairStep acc p, hstep]; rfl
      simp [hstep, Bind.bind, Except.bind, hb, ih]

/-! ## Parse-render per-line lemma -/

theorem strMk_append (a b : List Char) : (⟨a⟩ : String) ++ ⟨b⟩ = ⟨a ++ b⟩ := rfl

theorem renderLine_parseEnvLineChars (cs : List Char) :
    renderLine (parseEnvLineChars cs) = ⟨canonLineChars cs⟩ := by
  simp only [parseEnvLineChars, canonLineChars]
  cases h1 : cs.all isJsWs
  · simp only [h1, Bool.false_eq_true, if_false]
    cases h2 : (cs.dropWhile isJsWs).head? == some '#'
    · simp only [h2, Bool.false_eq_true, if_false]
      cases h3 : (cs.takeWhile isKeyChar).isEmpty
      · simp only [h3, Bool.false_eq_true, if_false]
        cases hafter : (cs.dropWhile isKeyChar).dropWhile isJsWs with
        | nil => rfl
        | cons a afterEq =>
          by_cases h4 : a = '='
          · subst h4
            simp only [if_pos rfl]
            cases h5 : (afterEq.dropWhile isJsWs).contains '\r'
            · simp only [h5, Bool.false_eq_true, if_false]
              show (⟨cs.takeWhile isKeyChar⟩ : String) ++ "=" ++ ⟨afterEq.dropWhile isJsWs⟩ =
                ⟨cs.takeWhile isKeyChar ++ '=' :: afterEq.dropWhile isJsWs⟩
              have heq : ("=" : String) = ⟨['=']⟩ := rfl
              rw [heq, strMk_append, strMk_append, List.append_assoc]
              rfl
            · simp only [h5, if_true]
              rfl
          · simp only [if_neg h4]
            rfl
      · simp only [h3, if_true]
        rfl
    · simp only [h2, if_true]
      rfl
  · simp only [h1, if_true]
    rfl

/-! ## Placeholder-table combination lemmas -/

theorem fst_mem_of_aGet? {α : Type} {m : List (String × α)} {k : String} {v : α}
    (h : aGet? m k = some v) : k ∈ m.map Prod.fst := by
  unfold aGet? at h
  cases hf : m.find? (fun p => p.1 == k) with
  | none => rw [hf] at h; cases h
  | some q =>
    have hq1 : q.1 = k := by simpa using List.find?_some hf
    exact List.mem_map.mpr ⟨q, List.mem_of_find?_eq_some hf, hq1⟩

theorem combinePlaceholders_cons (supa : List (String × String)) (p : String × String)
    (user : List (String × String)) :
    combinePlaceholders supa (p :: user) = combinePlaceholders (aSet supa p.1 p.2) user := rfl

theorem combine_get_of_user_none {user : List (String × String)} {x : String} :
    ∀ {supa : List (String × String)}, aGet? user x = none →
      aGet? (combinePlaceholders supa user) x = aGet? supa x := by
  induction user with
  | nil => intro supa _; rfl
  | cons p user ih =>
    intro supa h
    rw [aGet?_cons] at h
    cases hpx : p.1 == x
    · rw [hpx] at h
      simp only [Bool.false_eq_true, if_false] at h
      rw [combinePlaceholders_cons, ih h]
      exact aGet?_aSet_ne supa p.2 (by simpa using hpx)
    · rw [hpx] at h
      simp at h

theorem combine_get_of_user_some {user : List (String × String)} {x vu : String} :
    ∀ {supa : List (String × String)}, (user.map Prod.fst).Nodup →
      aGet? user x = some vu →
      aGet? (combinePlaceholders supa user) x = some vu := by
  induction user with
  | nil => intro supa _ h; cases h
  | cons p user ih =>
    intro supa hnd h
    have hnd' : (p.1 :: user.map Prod.fst).Nodup := by
      rw [List.map_cons] at hnd
      exact hnd
    have hnd1 : p.1 ∉ user.map Prod.fst := (List.nodup_cons.mp hnd').1
    have hnd2 : (user.map Prod.fst).Nodup := (List.nodup_cons.mp hnd').2
    rw [aGet?_cons] at h
    cases hpx : p.1 == x
    · rw [hpx] at h
      simp only [Bool.false_eq_true, if_false] at h
      rw [combinePlaceholders_cons]
      exact ih hnd2 h
    · rw [hpx] at h
      simp only [if_true] at h
      have hv : p.2 = vu := by simpa using h
      have hx : p.1 = x := by simpa using hpx
      have hnone : aGet? user x = none := by
        cases hg : aGet? user x with
        | none => rfl
        | some v =>
          exfalso
          apply hnd1
          rw [hx]
          exact fst_mem_of_aGet? hg
      rw [combinePlaceholders_cons, combine_get_of_user_none hnone, hx, hv]
      exact aGet?_aSet_self supa x vu

/-! ## Claim theorems -/

/-- C1, counterexample: merging an empty existing side does not return the
new lines verbatim — a comment line among the new lines is dropped, because
the merge map only ever holds key/value lines. -/
theorem mergeEnvLocal_empty_drops_comment :
    mergeEnvLocal [] [EnvLine.comment "# header"] false ≠ [EnvLine.comment "# header"] := by
  decide

/-- C1, amended: for a new line list consisting only of KeyValue lines with
pairwise distinct keys, merging with an empty existing side returns exactly
the new lines in their original order, for either override value.  (In
general, Comment and Blank lines of the new side are dropped and duplicate
keys are collapsed to one line.) -/
theorem mergeEnvLocal_empty_existing (N : List EnvLine) (ov : Bool)
    (hkv : ∀ ln ∈ N, isKV ln = true) (hnd : (kvKeys N).Nodup) :
    mergeEnvLocal [] N ov = N := by
  show mergeWalkOut ov (buildNewMap N) [] ++ (mergeWalkMap ov (buildNewMap N) []).map Prod.snd = N
  rw [mergeWalkOut_nil, mergeWalkMap_nil, List.nil_append]
  exact buildNewMap_of_distinct hkv hnd

/-- C1, witness: the amended statement at a concrete two-line list. -/
theorem mergeEnvLocal_empty_existing_witness :
    mergeEnvLocal [] [EnvLine.keyvalue "A" "1" "A=1", EnvLine.keyvalue "B" "2" "B=2"] true =
      [EnvLine.keyvalue "A" "1" "A=1", EnvLine.keyvalue "B" "2" "B=2"] :=
  mergeEnvLocal_empty_existing _ true (by decide) (by decide)

/-- C2: every key occurring in a KeyValue line of the existing lines also
occurs in a KeyValue line of the merge result, for either override value —
the merge never deletes an existing key. -/
theorem mergeEnvLocal_keeps_existing_keys (E N : List EnvLine) (ov : Bool) (k : String)
    (h : k ∈ kvKeys E) : k ∈ kvKeys (mergeEnvLocal E N ov) := by
  have hwf := MapWF_buildNewMap N
  have hkW : k ∈ kvKeys (mergeWalkOut ov (buildNewMap N) E) := by
    cases ov with
    | false => rw [mergeWalkOut_false]; exact h
    | true =>
      cases hg : aGet? (buildNewMap N) k with
      | none =>
        obtain ⟨x, hx, _⟩ := firstKV_of_mem h
        have hfk : firstKV (mergeWalkOut true (buildNewMap N) E) k = some x := by
          rw [firstKV_mergeWalkOut_of_none hwf hg]
          exact hx
        exact (mem_kvKeys_of_firstKV hfk).1
      | some nl =>
        exact (mem_kvKeys_of_firstKV (firstKV_mergeWalkOut_of_some hwf hg h)).1
  obtain ⟨ln, hln, hkey⟩ := mem_kvKeys.mp hkW
  show k ∈ kvKeys (mergeWalkOut ov (buildNewMap N) E ++
    (mergeWalkMap ov (buildNewMap N) E).map Prod.snd)
  exact mem_kvKeys.mpr ⟨ln, List.mem_append_left _ hln, hkey⟩

/-- C2, witness: a key present only in the existing side survives a merge
with override. -/
theorem mergeEnvLocal_keeps_existing_keys_witness :
    "A" ∈ kvKeys (mergeEnvLocal [EnvLine.keyvalue "A" "1" "A=1"]
      [EnvLine.keyvalue "B" "9" "B=9"] true) :=
  mergeEnvLocal_keeps_existing_keys _ _ true "A" (by decide)

/-- C3: for a key present in the existing lines, merging without override
keeps the existing value; with override and the key also present in the new
lines, the (last) new value wins; a key present only in the existing lines
keeps its existing value under either override value.  Values are read off
the first key/value line with the given key. -/
theorem mergeEnvLocal_value_policy (E N : List EnvLine) (k : String) :
    (k ∈ kvKeys E → firstVal (mergeEnvLocal E N false) k = firstVal E k)
    ∧ (k ∈ kvKeys E → k ∈ kvKeys N →
        firstVal (mergeEnvLocal E N true) k = lastVal N k)
    ∧ (∀ ov, k ∈ kvKeys E → k ∉ kvKeys N →
        firstVal (mergeEnvLocal E N ov) k = firstVal E k) := by
  have hwf := MapWF_buildNewMap N
  refine ⟨?_, ?_, ?_⟩
  · intro hE
    obtain ⟨x, hx, _⟩ := firstKV_of_mem hE
    have h1 : firstKV (mergeEnvLocal E N false) k = some x := by
      show firstKV (mergeWalkOut false (buildNewMap N) E ++
        (mergeWalkMap false (buildNewMap N) E).map Prod.snd) k = some x
      rw [mergeWalkOut_false]
      exact firstKV_append_left hx _
    unfold firstVal
    rw [h1, hx]
  · intro hE hN
    obtain ⟨nl, hnl⟩ := lastKV_of_mem hN
    have hg : aGet? (buildNewMap N) k = some nl := by rw [aGet?_buildNewMap, hnl]
    have h1 : firstKV (mergeEnvLocal E N true) k = some nl := by
      show firstKV (mergeWalkOut true (buildNewMap N) E ++
        (mergeWalkMap true (buildNewMap N) E).map Prod.snd) k = some nl
      exact firstKV_append_left (firstKV_mergeWalkOut_of_some hwf hg hE) _
    unfold firstVal lastVal
    rw [h1, hnl]
  · intro ov hE hN
    obtain ⟨x, hx, _⟩ := firstKV_of_mem hE
    have hg : aGet? (buildNewMap N) k = none := by
      rw [aGet?_buildNewMap, lastKV_of_not_mem hN]
    have h1 : firstKV (mergeEnvLocal E N ov) k = some x := by
      show firstKV (mergeWalkOut ov (buildNewMap N) E ++
        (mergeWalkMap ov (buildNewMap N) E).map Prod.snd) k = some x
      cases ov with
      | false =>
        rw [mergeWalkOut_false]
        exact firstKV_append_left hx _
      | true =>
        refine firstKV_append_left ?_ _
        rw [firstKV_mergeWalkOut_of_none hwf hg]
        exact hx
    unfold firstVal
    rw [h1, hx]

/-- C3, witness: the three clauses at a concrete merge. -/
theorem mergeEnvLocal_value_policy_witness :
    firstVal (mergeEnvLocal [EnvLine.keyvalue "A" "1" "A=1", EnvLine.keyvalue "C" "9" "C=9"]
      [EnvLine.keyvalue "A" "2" "A=2"] false) "A" = some "1"
    ∧ firstVal (mergeEnvLocal [EnvLine.keyvalue "A" "1" "A=1", EnvLine.keyvalue "C" "9" "C=9"]
      [EnvLine.keyvalue "A" "2" "A=2"] true) "A" = some "2"
    ∧ firstVal (mergeEnvLocal [EnvLine.keyvalue "A" "1" "A=1", EnvLine.keyvalue "C" "9" "C=9"]
      [EnvLine.keyvalue "A" "2" "A=2"] true) "C" = some "9" := by
  refine ⟨?_, ?_, ?_⟩
  · exact ((mergeEnvLocal_value_policy _ _ "A").1 (by decide)).trans (by decide)
  · exact ((mergeEnvLocal_value_policy _ _ "A").2.1 (by decide) (by decide)).trans (by decide)
  · exact ((mergeEnvLocal_value_policy _ _ "C").2.2 true (by decide) (by decide)).trans (by decide)

/-- C4, counterexample: parse-then-render is not the identity modulo
trailing-`\r` stripping: the input `A =1` contains no `\r` at all, yet it
renders back as `A=1` — the whitespace around `=` is lost. -/
theorem parse_render_not_exact :
    renderLines (parseEnvFileText "A =1") = "A=1"
    ∧ ("A=1" : String) ≠ "A =1"
    ∧ ("A =1" : String).data.all (fun c => !(c == '\r')) = true := by
  refine ⟨by decide, by decide, by decide⟩

/-- C4, amended: parsing a text line-by-line (split on `\r?\n`) and
rendering the resulting lines with no substitutions reproduces the
original text modulo: stripping the `\r` of every `\r\n` line break,
collapsing whitespace-only lines to empty lines, and, in assignment lines,
removing the whitespace around the `=` separator (rendering `key=value`).
`canonText` states that normalization directly. -/
theorem parse_render_canon (content : String) :
    renderLines (parseEnvFileText content) = canonText content := by
  unfold renderLines parseEnvFileText canonText
  rw [List.map_map]
  have h : ∀ ls : List (List Char),
      ls.map (renderLine ∘ parseEnvLineChars) =
        ls.map (fun cs => (⟨canonLineChars cs⟩ : String)) := by
    intro ls
    induction ls with
    | nil => rfl
    | cons c l ih =>
      rw [List.map_cons, List.map_cons, ih]
      rw [Function.comp_apply, renderLine_parseEnvLineChars c]
  rw [h]

/-- C5: with the destination file present and containing `PORT=9999` and the
generated lines containing `PORT=3000`, the merge branch of
generateEnvAction keeps `PORT=9999` both without and WITH the `--override`
option, because `canOverride = !merge && override` is false whenever the
merge branch runs; `mergeEnvLocal` itself would adopt `PORT=3000` if its
override flag were true. -/
theorem override_ignored_when_merging :
    mergeEnvLocal [EnvLine.keyvalue "PORT" "9999" "PORT=9999"]
      [EnvLine.keyvalue "PORT" "3000" "PORT=3000"] false =
      [EnvLine.keyvalue "PORT" "9999" "PORT=9999"]
    ∧ mergeEnvLocal [EnvLine.keyvalue "PORT" "9999" "PORT=9999"]
      [EnvLine.keyvalue "PORT" "3000" "PORT=3000"] true =
      [EnvLine.keyvalue "PORT" "3000" "PORT=3000"]
    ∧ processExistingFile [EnvLine.keyvalue "PORT" "9999" "PORT=9999"]
      [EnvLine.keyvalue "PORT" "3000" "PORT=3000"] [] true false = some "PORT=9999"
    ∧ processExistingFile [EnvLine.keyvalue "PORT" "9999" "PORT=9999"]
      [EnvLine.keyvalue "PORT" "3000" "PORT=3000"] [] true true = some "PORT=9999" := by
  refine ⟨by decide, by decide, by decide, by decide⟩

/-- C6: in the combined placeholder table
`{ ...supabaseMap, ...userPlaceholders }`, a name present in both tables
resolves to the user-supplied value, and a name absent from both is absent
from the combination. -/
theorem combinePlaceholders_precedence (supaMap userMap : List (String × String)) (x : String) :
    ((userMap.map Prod.fst).Nodup →
      ∀ vu vs, aGet? userMap x = some vu → aGet? supaMap x = some vs →
        aGet? (combinePlaceholders supaMap userMap) x = some vu)
    ∧ (aGet? userMap x = none → aGet? supaMap x = none →
        aGet? (combinePlaceholders supaMap userMap) x = none) := by
  constructor
  · intro hnd vu vs hu _
    exact combine_get_of_user_some hnd hu
  · intro hu hs
    rw [combine_get_of_user_none hu, hs]

/-- C6, witness: the spec's own example `{x: "A"}` over `{x: "B"}`. -/
theorem combinePlaceholders_precedence_witness :
    aGet? (combinePlaceholders [("x", "B")] [("x", "A")]) "x" = some "A"
    ∧ aGet? (combinePlaceholders [("y", "B")] []) "x" = none := by
  constructor
  · exact (combinePlaceholders_precedence [("x", "B")] [("x", "A")] "x").1
      (by decide) "A" "B" (by decide) (by decide)
  · exact (combinePlaceholders_precedence [("y", "B")] [] "x").2 (by decide) (by decide)

/-- C7: a KeyValue line whose trimmed value is a whole-value bracket token
whose normalized name is not in the placeholder table passes through
resolution unchanged; in particular `FOO=<bar>` against the empty table
stays `FOO=<bar>`. -/
theorem unresolved_placeholder_passthrough (pm : List (String × String))
    (k v raw inner : String)
    (h1 : matchAngle (jsTrim v) = some inner)
    (h2 : aGet? pm (normalizePlaceholderName inner) = none) :
    resolveLine pm (EnvLine.keyvalue k v raw) = EnvLine.keyvalue k v raw
    ∧ generateEnvLocalLines [EnvLine.keyvalue "FOO" "<bar>" "FOO=<bar>"] [] =
        [EnvLine.keyvalue "FOO" "<bar>" "FOO=<bar>"] := by
  constructor
  · simp [resolveLine, h1, h2]
  · decide

/-- C7, witness: an unresolved bracket token at a concrete line. -/
theorem unresolved_placeholder_passthrough_witness :
    resolveLine [] (EnvLine.keyvalue "X" " <Z_1> " "X= <Z_1> ") =
      EnvLine.keyvalue "X" " <Z_1> " "X= <Z_1> " :=
  (unresolved_placeholder_passthrough [] "X" " <Z_1> " "X= <Z_1> " "Z_1"
    (by decide) (by decide)).1

/-- C8, counterexample: invoked with only `supabase-anon-key` missing, the
external-status table still contains an entry for `supabase-url` (taken
from `API_URL`), and no entry for `supabase-api-url` even though `API_URL`
is present — the fixed mapping neither filters by the missing names nor
maps `API_URL` to `supabase-api-url`. -/
theorem fetchFromSupabaseJSON_not_filtered :
    aGet? (fetchFromSupabaseJSON ["supabase-anon-key"]
      (fun f => if f == "API_URL" then some "http://x"
        else if f == "ANON_KEY" then some "anon" else none)) "supabase-url" =
      some (some "http://x")
    ∧ ("supabase-url" ∉ (["supabase-anon-key"] : List String))
    ∧ aGet? (fetchFromSupabaseJSON ["supabase-anon-key"]
      (fun f => if f == "API_URL" then some "http://x"
        else if f == "ANON_KEY" then some "anon" else none)) "supabase-api-url" = none := by
  refine ⟨by decide, by decide, by decide⟩

/-- C8, amended: on a successful status fetch with a nonempty request list,
the returned table is the five fixed assignments `supabase-url ← API_URL`,
`supabase-anon-key ← ANON_KEY`, `supabase-service-role-key ←
SERVICE_ROLE_KEY`, `supabase-graphql-url ← GRAPHQL_URL`, `supabase-db-url ←
DB_URL`, made unconditionally — regardless of which names were requested —
and no other name (in particular not `supabase-api-url`) gets an entry. -/
theorem fetchFromSupabaseJSON_fixed_mapping (jsonData : String → Option String)
    (names : List String) (h : names ≠ []) :
    aGet? (fetchFromSupabaseJSON names jsonData) "supabase-url" = some (jsonData "API_URL")
    ∧ aGet? (fetchFromSupabaseJSON names jsonData) "supabase-anon-key" =
        some (jsonData "ANON_KEY")
    ∧ aGet? (fetchFromSupabaseJSON names jsonData) "supabase-service-role-key" =
        some (jsonData "SERVICE_ROLE_KEY")
    ∧ aGet? (fetchFromSupabaseJSON names jsonData) "supabase-graphql-url" =
        some (jsonData "GRAPHQL_URL")
    ∧ aGet? (fetchFromSupabaseJSON names jsonData) "supabase-db-url" =
        some (jsonData "DB_URL")
    ∧ ∀ n, n ∉ (["supabase-url", "supabase-anon-key", "supabase-service-role-key",
        "supabase-graphql-url", "supabase-db-url"] : List String) →
        aGet? (fetchFromSupabaseJSON names jsonData) n = none := by
  have hne : names.isEmpty = false := by
    cases names with
    | nil => exact absurd rfl h
    | cons a l => rfl
  have hfe : fetchFromSupabaseJSON names jsonData =
      [("supabase-url", jsonData "API_URL"),
       ("supabase-anon-key", jsonData "ANON_KEY"),
       ("supabase-service-role-key", jsonData "SERVICE_ROLE_KEY"),
       ("supabase-graphql-url", jsonData "GRAPHQL_URL"),
       ("supabase-db-url", jsonData "DB_URL")] := by
    simp [fetchFromSupabaseJSON, hne]
  rw [hfe]
  refine ⟨by simp [aGet?_cons], by simp [aGet?_cons], by simp [aGet?_cons],
    by simp [aGet?_cons], by simp [aGet?_cons], ?_⟩
  intro n hn
  simp only [List.mem_cons, List.not_mem_nil, or_false, not_or] at hn
  obtain ⟨e1, e2, e3, e4, e5⟩ := hn
  have b1 : (("supabase-url" : String) == n) = false := by
    rw [beq_eq_false_iff_ne]; exact fun e => e1 e.symm
  have b2 : (("supabase-anon-key" : String) == n) = false := by
    rw [beq_eq_false_iff_ne]; exact fun e => e2 e.symm
  have b3 : (("supabase-service-role-key" : String) == n) = false := by
    rw [beq_eq_false_iff_ne]; exact fun e => e3 e.symm
  have b4 : (("supabase-graphql-url" : String) == n) = false := by
    rw [beq_eq_false_iff_ne]; exact fun e => e4 e.symm
  have b5 : (("supabase-db-url" : String) == n) = false := by
    rw [beq_eq_false_iff_ne]; exact fun e => e5 e.symm
  simp [aGet?_cons, aGet?_nil, b1, b2, b3, b4, b5]

/-- C8, witness: the amended statement at a concrete request. -/
theorem fetchFromSupabaseJSON_fixed_mapping_witness :
    aGet? (fetchFromSupabaseJSON ["a"] (fun _ => none)) "supabase-url" = some none :=
  (fetchFromSupabaseJSON_fixed_mapping (fun _ => none) ["a"] (by decide)).1

/-- C9, counterexample: a Blank line present only in the new lines is not
appended after the merged content — it is dropped from the merge output
entirely. -/
theorem merge_drops_new_blank :
    EnvLine.blank ∉ mergeEnvLocal [] [EnvLine.blank] true := by
  decide

/-- C9, amended: every Comment or Blank line of the existing side keeps its
exact original position in the merge output, and every Comment or Blank
line of the output comes from the existing side — Comment/Blank lines
occurring only in the new lines are dropped, not appended. -/
theorem merge_comment_blank_policy (E N : List EnvLine) (ov : Bool) :
    (∀ (i : Nat) (ln : EnvLine), E[i]? = some ln → isKV ln = false →
        (mergeEnvLocal E N ov)[i]? = some ln)
    ∧ (∀ ln ∈ mergeEnvLocal E N ov, isKV ln = false → ln ∈ E) := by
  have hwf := MapWF_buildNewMap N
  constructor
  · intro i ln h hkv
    show (mergeWalkOut ov (buildNewMap N) E ++
      (mergeWalkMap ov (buildNewMap N) E).map Prod.snd)[i]? = some ln
    exact mergeWalkOut_append_get_nonKV _ i ln h hkv
  · intro ln hln hkv
    have hsplit : ln ∈ mergeWalkOut ov (buildNewMap N) E ∨
        ln ∈ (mergeWalkMap ov (buildNewMap N) E).map Prod.snd := by
      have heq : mergeEnvLocal E N ov = mergeWalkOut ov (buildNewMap N) E ++
          (mergeWalkMap ov (buildNewMap N) E).map Prod.snd := rfl
      rw [heq] at hln
      exact List.mem_append.mp hln
    rcases hsplit with h1 | h2
    · exact mem_mergeWalkOut_nonKV hwf h1 hkv
    · exfalso
      obtain ⟨p, hp, hpe⟩ := List.mem_map.mp h2
      have hwfp := hwf p (mem_mergeWalkMap hp)
      rw [isKV_false_iff] at hkv
      rw [hpe, hkv] at hwfp
      cases hwfp

/-- C9, witness: an existing comment stays at index 0 through a merge with
override against new lines that would replace the key/value line. -/
theorem merge_comment_blank_policy_witness :
    (mergeEnvLocal [EnvLine.comment "# keep", EnvLine.keyvalue "A" "1" "A=1"]
      [EnvLine.keyvalue "A" "2" "A=2", EnvLine.blank] true)[0]? =
      some (EnvLine.comment "# keep") :=
  (merge_comment_blank_policy [EnvLine.comment "# keep", EnvLine.keyvalue "A" "1" "A=1"]
    [EnvLine.keyvalue "A" "2" "A=2", EnvLine.blank] true).1 0
    (EnvLine.comment "# keep") (by decide) (by decide)

/-- C10: parseKeyValuePairs throws exactly when the (non-whitespace-only)
input has a comma-separated pair whose first `=`-segment is empty or whose
second `=`-segment is empty or missing; on success the value stored for a
pair is the trimmed second segment, so `k=a=b` stores `a` and discards
`=b`, while `k=` and `=v` are fatal. -/
theorem parseKeyValuePairs_error_iff (input : String) :
    (isErr (parseKeyValuePairs input) = true ↔
      (jsTrim input ≠ "" ∧ ∃ p ∈ jsSplit ',' input, badPair p = true))
    ∧ parseKeyValuePairs "k=a=b" = Except.ok [("k", "a")]
    ∧ isErr (parseKeyValuePairs "k=") = true
    ∧ isErr (parseKeyValuePairs "=v") = true := by
  refine ⟨?_, rfl, rfl, rfl⟩
  unfold parseKeyValuePairs
  cases ht : jsTrim input == ""
  · simp only [ht, Bool.false_eq_true, if_false]
    rw [isErr_foldlM_parsePairStep]
    constructor
    · intro h
      exact ⟨by simpa using ht, by simpa using List.any_eq_true.mp h⟩
    · intro h
      exact List.any_eq_true.mpr (by simpa using h.2)
  · simp only [ht, if_true]
    constructor
    · intro h
      simp [isErr] at h
    · intro h
      exact absurd (by simpa using ht) h.1

end EnvPopulate
